import Mathlib

/-!
Shallow embedding of the two scripts `中转/ip.py` and `中转/ip2.py`:
IPv4 extraction (the regex `RE_IPV4`), candidate collection with
dedup-by-trimmed-line, per-country quota buckets, the concurrent
verification engine of `ip2.py`, and output assembly.

I/O is modelled by parameters: the GeoIP lookup of `ip2.py` becomes an
arbitrary function `geo : String → Option String`, and the concurrent
probe results become an arbitrary list of `(candidate, verdict)` events
in completion order, consumed one at a time by the single coordinating
loop (exactly as `as_completed` delivers them in the source).
-/

namespace CmIP

/-- Python's whitespace set for `str.strip()` (the ASCII characters it
strips). -/
def pySpace (c : Char) : Bool :=
  c = ' ' || c = '\t' || c = '\n' || c = '\r' || c = '\x0b' || c = '\x0c'

/-- Python `str.strip()`: drop leading and trailing whitespace. -/
def strip (s : String) : String :=
  ⟨((s.data.dropWhile pySpace).reverse.dropWhile pySpace).reverse⟩

/-- Python `str.lower()` (ASCII case mapping). -/
def lower (s : String) : String := ⟨s.data.map Char.toLower⟩

/-- Accumulator loop of `splitlines`: collect the current line (reversed)
until a newline. -/
def splitlinesAux : List Char → List Char → List String
  | [], cur => if cur.isEmpty then [] else [⟨cur.reverse⟩]
  | c :: rest, cur =>
      if c = '\n' then ⟨cur.reverse⟩ :: splitlinesAux rest []
      else splitlinesAux rest (c :: cur)

/-- Python `str.splitlines` restricted to `"\n"` separators: split on
newline, with no trailing empty line (`"a\n" ↦ ["a"]`, `"" ↦ []`). -/
def splitlines (s : String) : List String := splitlinesAux s.data []

/-- Accumulator loop of `splitDot`. -/
def splitDotAux : List Char → List Char → List (List Char)
  | [], cur => [cur.reverse]
  | c :: rest, cur =>
      if c = '.' then cur.reverse :: splitDotAux rest []
      else splitDotAux rest (c :: cur)

/-- Python `ip.split('.')` over characters (keeps empty components). -/
def splitDot (cs : List Char) : List (List Char) := splitDotAux cs []

/-- Digit-accumulating loop of `parseNat`. -/
def parseNatAux : List Char → Nat → Option Nat
  | [], acc => some acc
  | c :: rest, acc =>
      if c.isDigit then parseNatAux rest (acc * 10 + (c.toNat - ('0').toNat)) else none

/-- Python `int(p)` on a digit string: `none` when `p` is empty or has a
non-digit character (`int` raises there). -/
def parseNat : List Char → Option Nat
  | [] => none
  | c :: rest => parseNatAux (c :: rest) 0

/-- Take exactly `n` decimal digits from the front of `cs`, returning the
digits and the remainder. -/
def splitDigits : Nat → List Char → Option (List Char × List Char)
  | 0, cs => some ([], cs)
  | n + 1, c :: cs =>
      if c.isDigit then (splitDigits n cs).map (fun p => (c :: p.1, p.2)) else none
  | _ + 1, [] => none

/-- The longest run of 1–3 digits at the head of `cs` (greedy `\d{1,3}` with
nothing after it inside the capture group). -/
def takeOctet (cs : List Char) : Option (List Char × List Char) :=
  (splitDigits 3 cs).orElse fun _ => (splitDigits 2 cs).orElse fun _ => splitDigits 1 cs

/-- One alternative of the backtracking matcher: an octet of exactly `n`
digits, a literal dot, then the rest of the pattern matched by `rec`. -/
def tryDotF (rec : List Char → Option (List Char)) (n : Nat) (cs : List Char) :
    Option (List Char) :=
  match splitDigits n cs with
  | none => none
  | some (_, []) => none
  | some (d, c :: r) =>
      if c = '.' then
        match rec r with
        | some m => some (d ++ '.' :: m)
        | none => none
      else none

/-- Backtracking matcher for `\d{1,3}(?:\.\d{1,3}){k}` anchored at the head
of `cs`, with Python `re` semantics (each `\d{1,3}` greedy, backtracking on
failure of the continuation); returns the matched characters. -/
def matchQuad : Nat → List Char → Option (List Char)
  | 0, cs => (takeOctet cs).map Prod.fst
  | k + 1, cs =>
      (tryDotF (matchQuad k) 3 cs).orElse fun _ =>
        (tryDotF (matchQuad k) 2 cs).orElse fun _ => tryDotF (matchQuad k) 1 cs

/-- Leftmost match of `RE_IPV4`'s capture group in `cs`: Python
`RE_IPV4.search`, scanning start positions left to right. -/
def searchQuad : List Char → Option (List Char)
  | [] => none
  | c :: t => (matchQuad 3 (c :: t)).orElse fun _ => searchQuad t

/-- One component check of `extract_ipv4`: `0 <= int(p) <= 255`, with a
parse failure giving `None` (modelled as `false`, which makes the whole
extraction return `none`, as in the source). -/
def validOctet (p : List Char) : Bool :=
  match parseNat p with
  | some n => decide (n ≤ 255)
  | none => false

/-- `extract_ipv4` (identical in `ip.py` and `ip2.py`): take the leftmost
`RE_IPV4` match, then require every dot-separated component to be in
`[0, 255]`; otherwise the line yields no address. -/
def extract_ipv4 (line : String) : Option String :=
  match searchQuad line.data with
  | none => none
  | some quad =>
      if (splitDot quad).all validOctet then some ⟨quad⟩ else none

/-- Spec-side predicate (not in the source): does `s` contain, at any start
position, a dotted-quad substring all four of whose components are valid
`[0, 255]` integers?  Used to state the claim that extraction fails only on
lines with no valid dotted-quad substring. -/
def hasValidQuadAux : List Char → Bool
  | [] => false
  | c :: t =>
      (match matchQuad 3 (c :: t) with
       | some q => (splitDot q).all validOctet
       | none => false) || hasValidQuadAux t

/-- `hasValidQuadAux` on a string's characters. -/
def hasValidQuad (s : String) : Bool := hasValidQuadAux s.data

/-- `COUNTRIES`, identical in both scripts. -/
def COUNTRIES : List String := ["sg", "hk", "jp", "tw", "kr", "us"]

/-- Python `needle in hay` on strings, over character lists. -/
def isSubstringOf (needle : List Char) : List Char → Bool
  | [] => needle.isEmpty
  | c :: t => needle.isPrefixOf (c :: t) || isSubstringOf needle t

/-- Python regex word character (ASCII part), for the `\b` boundary. -/
def isWordChar (c : Char) : Bool := c.isAlphanum || c = '_'

/-- Does `#(?:sg|hk|jp|tw|kr|us)\b` (case-insensitive) match at the head of
`cs`? -/
def tagAt (cs : List Char) : Bool :=
  match cs with
  | '#' :: c1 :: c2 :: rest =>
      COUNTRIES.contains (String.mk [c1.toLower, c2.toLower]) &&
        (match rest with
         | [] => true
         | c :: _ => !isWordChar c)
  | _ => false

/-- `PAT_TAG.search` of `ip.py`: the tag pattern matches at some position. -/
def patTagSearch : List Char → Bool
  | [] => false
  | c :: t => tagAt (c :: t) || patTagSearch t

namespace Ip

/-- `MAX_PER_COUNTRY.get(c, 0)` of `ip.py`. -/
def MAX_PER_COUNTRY : String → Nat
  | "sg" => 50
  | "hk" => 30
  | "jp" => 20
  | "tw" => 10
  | "kr" => 10
  | "us" => 30
  | _ => 0

/-- A candidate of `ip.py`: the tuple `(index, line, tag)`. -/
structure Cand where
  idx : Nat
  line : String
  tag : String
deriving DecidableEq, Repr

/-- `primary_tag_of_line` of `ip.py`: first country whose `#<code>` occurs
in the lowercased line. -/
def primary_tag_of_line (line : String) : Option String :=
  let low := lower line
  COUNTRIES.find? fun c => isSubstringOf ("#" ++ c).data low.data

/-- The loop body of `collect_candidates` of `ip.py`, over the enumerated
lines, threading the `seen` set. -/
def collectLoop : List (Nat × String) → List String → List Cand
  | [], _ => []
  | (idx, raw) :: rest, seen =>
      let line := strip raw
      if line = "" then collectLoop rest seen
      else if patTagSearch line.data = false then collectLoop rest seen
      else if line ∈ seen then collectLoop rest seen
      else
        match primary_tag_of_line line with
        | none => collectLoop rest (line :: seen)
        | some tag =>
            match extract_ipv4 line with
            | none => collectLoop rest (line :: seen)
            | some _ => ⟨idx, line, tag⟩ :: collectLoop rest (line :: seen)

/-- `collect_candidates` of `ip.py`. -/
def collect_candidates (text : String) : List Cand :=
  collectLoop (splitlines text).enum []

/-- The saving loop of `save_candidates` of `ip.py`: append a candidate to
its tag's bucket when the bucket is strictly below the tag's cap. -/
def save_loop : List Cand → (String → List (Nat × String)) → String → List (Nat × String)
  | [], saved => saved
  | c :: rest, saved =>
      let saved' :=
        if (saved c.tag).length < MAX_PER_COUNTRY c.tag then
          fun k => if k = c.tag then saved c.tag ++ [(c.idx, c.line)] else saved k
        else saved
      save_loop rest saved'

/-- The bucket map built by `save_candidates` of `ip.py`. -/
def save_candidates (cands : List Cand) : String → List (Nat × String) :=
  save_loop cands fun _ => []

/-- The flat list of lines `save_candidates` writes to the output file:
per-country buckets concatenated in `COUNTRIES` order. -/
def savedLines (saved : String → List (Nat × String)) : List String :=
  COUNTRIES.flatMap fun c => (saved c).map Prod.snd

end Ip

namespace Ip2

/-- `MAX_PER_COUNTRY.get(c, 0)` of `ip2.py`. -/
def MAX_PER_COUNTRY : String → Nat
  | "sg" => 30
  | "hk" => 20
  | "jp" => 20
  | "tw" => 10
  | "kr" => 10
  | "us" => 20
  | _ => 0

/-- A candidate of `ip2.py`: the tuple `(index, line, tag, ip)`. -/
structure Cand where
  idx : Nat
  line : String
  tag : String
  ip : String
deriving DecidableEq, Repr

/-- `primary_tag_of_line` of `ip2.py`, with the GeoIP lookup abstracted as
`geo` (answering `none` when the lookup raises or the ISO code is absent). -/
def primary_tag_of_line (geo : String → Option String) (line : String) : Option String :=
  match extract_ipv4 line with
  | none => none
  | some ip =>
      match (geo ip).map lower with
      | none => none
      | some code => if code ∈ COUNTRIES then some code else none

/-- The loop body of `collect_candidates` of `ip2.py`. -/
def collectLoop (geo : String → Option String) :
    List (Nat × String) → List String → List Cand
  | [], _ => []
  | (idx, raw) :: rest, seen =>
      let line := strip raw
      if line = "" then collectLoop geo rest seen
      else if line ∈ seen then collectLoop geo rest seen
      else
        match primary_tag_of_line geo line with
        | none => collectLoop geo rest (line :: seen)
        | some tag =>
            match extract_ipv4 line with
            | none => collectLoop geo rest (line :: seen)
            | some ip => ⟨idx, line, tag, ip⟩ :: collectLoop geo rest (line :: seen)

/-- `collect_candidates` of `ip2.py`. -/
def collect_candidates (geo : String → Option String) (text : String) : List Cand :=
  collectLoop geo (splitlines text).enum []

/-- A probe outcome as consumed by the engine loop: `is_reachable` returned
`True` or `False`, or `fut.result()` raised. -/
inductive Verdict
  | reachable
  | unreachable
  | error
deriving DecidableEq, Repr

/-- `ok = fut.result()` with the `except` clause: an exception becomes
`False`. -/
def verdictOk : Verdict → Bool
  | .reachable => true
  | _ => false

/-- The mutable state of the `run_concurrent_tests` loop: the bucket dict,
the tested counter, and whether the loop has executed `break`. -/
structure EngineState where
  saved : String → List (Nat × String)
  tested : Nat
  stopped : Bool

/-- `saved = {c: [] for c in COUNTRIES}; tested = 0`, loop not yet exited. -/
def initState : EngineState := ⟨fun _ => [], 0, false⟩

/-- `all(len(saved[c]) >= MAX_PER_COUNTRY.get(c, 0) for c in COUNTRIES)`. -/
def allQuotasMet (saved : String → List (Nat × String)) : Bool :=
  COUNTRIES.all fun c => decide (MAX_PER_COUNTRY c ≤ (saved c).length)

/-- One iteration of the verdict-consumption loop of `run_concurrent_tests`:
skip everything once `break` has run; otherwise count the probe, accept it
into its tag's bucket when reachable and the bucket is strictly below cap,
and exit the loop (after cancelling pending probes) when all quotas are met. -/
def engineStep (s : EngineState) (ev : Cand × Verdict) : EngineState :=
  if s.stopped then s
  else
    let saved :=
      if verdictOk ev.2 && decide ((s.saved ev.1.tag).length < MAX_PER_COUNTRY ev.1.tag) then
        fun k => if k = ev.1.tag then s.saved ev.1.tag ++ [(ev.1.idx, ev.1.line)] else s.saved k
      else s.saved
    { saved := saved, tested := s.tested + 1, stopped := allQuotasMet saved }

/-- The verdict-consumption loop of `run_concurrent_tests` over a completion
order `events` (one event per completed future, in the order `as_completed`
yields them). -/
def engineRun (events : List (Cand × Verdict)) : EngineState :=
  events.foldl engineStep initState

/-- Python `saved[c].sort(key=lambda t: t[0])`: stable sort ascending on the
index component (insertion sort is stable, like Python's `list.sort`). -/
def sortByIdx (l : List (Nat × String)) : List (Nat × String) :=
  l.insertionSort fun a b => a.1 ≤ b.1

/-- The pair `(saved, tested)` returned by `run_concurrent_tests` for the
completion order `events`: the final buckets, each sorted by index. -/
def run_concurrent_tests (events : List (Cand × Verdict)) :
    (String → List (Nat × String)) × Nat :=
  let s := engineRun events
  (fun c => sortByIdx (s.saved c), s.tested)

/-- The flat list of lines `write_output` writes: per-country buckets
concatenated in `COUNTRIES` order. -/
def write_output (saved : String → List (Nat × String)) : List String :=
  COUNTRIES.flatMap fun c => (saved c).map Prod.snd

/-- The `(index, rawLine)` pairs of the events whose candidate is tagged
`c`, in completion order: every entry a bucket can ever receive. -/
def bucketPairs (c : String) (events : List (Cand × Verdict)) : List (Nat × String) :=
  (events.filter fun e => decide (e.1.tag = c)).map fun e => (e.1.idx, e.1.line)

end Ip2

section ConcreteInputs

/-- A completion order that fills every country's quota exactly: for each
country, `MAX_PER_COUNTRY` reachable candidates. -/
def fullEvents : List (Ip2.Cand × Ip2.Verdict) :=
  COUNTRIES.flatMap fun c =>
    (List.range (Ip2.MAX_PER_COUNTRY c)).map fun i =>
      (⟨i, c ++ toString i, c, "0.0.0.0"⟩, .reachable)

/-- One more completed probe, arriving after all quotas are met. -/
def extraEvent : Ip2.Cand × Ip2.Verdict := (⟨1000, "late", "sg", "9.9.9.9"⟩, .reachable)

/-- A sample candidate for concrete engine steps. -/
def cand0 : Ip2.Cand := ⟨0, "line0", "sg", "1.2.3.4"⟩

/-- A concrete GeoIP stub: only `1.2.3.4` resolves, to Singapore. -/
def geo0 : String → Option String :=
  fun ip => if ip = "1.2.3.4" then some "SG" else none

/-- Input whose single line carries surrounding whitespace. -/
def text0 : String := " 1.2.3.4 x\n"

/-- The full-completion schedule for `text0` under `geo0`: every collected
candidate's probe answers reachable, in submission order. -/
def events0 : List (Ip2.Cand × Ip2.Verdict) :=
  (Ip2.collect_candidates geo0 text0).map fun c => (c, .reachable)

/-- Input in which one trimmed line occurs three times. -/
def text1 : String := "a #sg 1.2.3.4\nzz\na #sg 1.2.3.4\na #sg 1.2.3.4\n"

/-- The candidate `ip.py` collects from `text1`'s repeated line. -/
def cand1 : Ip.Cand := ⟨0, "a #sg 1.2.3.4", "sg"⟩

/-- Input for `ip2.py` in which one trimmed line occurs three times. -/
def text2 : String := "1.2.3.4 q\nw\n1.2.3.4 q\n1.2.3.4 q\n"

/-- The candidate `ip2.py` collects from `text2`'s repeated line under
`geo0`. -/
def cand2 : Ip2.Cand := ⟨0, "1.2.3.4 q", "sg", "1.2.3.4"⟩

/-- A small completion order with out-of-order indices for one country. -/
def events9 : List (Ip2.Cand × Ip2.Verdict) :=
  [(⟨5, "b", "hk", "8.8.8.8"⟩, .reachable), (⟨2, "a", "hk", "9.9.9.9"⟩, .reachable)]

end ConcreteInputs

/-! ### Engine lemmas -/

namespace Ip2

theorem engineStep_of_stopped {s : EngineState} (h : s.stopped = true)
    (ev : Cand × Verdict) : engineStep s ev = s := by
  simp [engineStep, h]

theorem foldl_engineStep_of_stopped {s : EngineState} (h : s.stopped = true) :
    ∀ q : List (Cand × Verdict), q.foldl engineStep s = s
  | [] => rfl
  | e :: q => by
      rw [List.foldl_cons, engineStep_of_stopped h, foldl_engineStep_of_stopped h q]

theorem engineRun_append (p q : List (Cand × Verdict)) :
    engineRun (p ++ q) = q.foldl engineStep (engineRun p) := by
  simp [engineRun, List.foldl_append]

theorem engineStep_tested_le (s : EngineState) (ev : Cand × Verdict) :
    (engineStep s ev).tested ≤ s.tested + 1 := by
  by_cases h : s.stopped = true
  · rw [engineStep_of_stopped h]; omega
  · simp only [engineStep, Bool.not_eq_true] at h ⊢
    rw [if_neg (by simp [h])]

theorem foldl_tested_le :
    ∀ (q : List (Cand × Verdict)) (s : EngineState),
      (q.foldl engineStep s).tested ≤ s.tested + q.length
  | [], _ => by simp
  | e :: q, s => by
      have h1 := foldl_tested_le q (engineStep s e)
      have h2 := engineStep_tested_le s e
      simp only [List.foldl_cons, List.length_cons]
      omega

/-- One step either leaves a bucket unchanged, or (when the verdict was
reachable and the bucket strictly below its cap) appends exactly the
candidate's `(index, rawLine)` pair to the candidate's tag bucket. -/
theorem engineStep_saved (s : EngineState) (ev : Cand × Verdict) (c : String) :
    (engineStep s ev).saved c = s.saved c ∨
      (c = ev.1.tag ∧ verdictOk ev.2 = true ∧
        (s.saved c).length < MAX_PER_COUNTRY c ∧
        (engineStep s ev).saved c = s.saved c ++ [(ev.1.idx, ev.1.line)]) := by
  by_cases hstop : s.stopped = true
  · rw [engineStep_of_stopped hstop]; left; rfl
  · simp only [engineStep, Bool.not_eq_true] at hstop ⊢
    rw [if_neg (by simp [hstop])]
    by_cases hc : (verdictOk ev.2 && decide ((s.saved ev.1.tag).length < MAX_PER_COUNTRY ev.1.tag)) = true
    · rw [if_pos hc]
      by_cases hceq : c = ev.1.tag
      · right
        simp only [Bool.and_eq_true, decide_eq_true_eq] at hc
        subst hceq
        exact ⟨rfl, hc.1, hc.2, by simp⟩
      · left; simp [hceq]
    · rw [if_neg hc]; left; rfl

theorem foldl_saved_length_le :
    ∀ (q : List (Cand × Verdict)) (s : EngineState) (c : String),
      (s.saved c).length ≤ MAX_PER_COUNTRY c →
      ((q.foldl engineStep s).saved c).length ≤ MAX_PER_COUNTRY c
  | [], _, _, h => h
  | e :: q, s, c, h => by
      rw [List.foldl_cons]
      refine foldl_saved_length_le q (engineStep s e) c ?_
      rcases engineStep_saved s e c with heq | ⟨_, _, hlt, heq⟩
      · rw [heq]; exact h
      · rw [heq]; simp only [List.length_append, List.length_cons, List.length_nil]; omega

theorem engineRun_saved_le (events : List (Cand × Verdict)) (c : String) :
    ((engineRun events).saved c).length ≤ MAX_PER_COUNTRY c :=
  foldl_saved_length_le events initState c (by simp [initState])

/-- Everything ever appended to bucket `c` is, in order, a sublist of the
`(index, rawLine)` pairs of the consumed events tagged `c`. -/
theorem foldl_saved_sublist :
    ∀ (q : List (Cand × Verdict)) (s : EngineState) (c : String),
      ∃ t, (q.foldl engineStep s).saved c = s.saved c ++ t ∧
        t.Sublist (bucketPairs c q)
  | [], s, c => ⟨[], by simp, by simp [bucketPairs]⟩
  | e :: q, s, c => by
      obtain ⟨t, ht, hsub⟩ := foldl_saved_sublist q (engineStep s e) c
      have hq : (bucketPairs c q).Sublist (bucketPairs c (e :: q)) := by
        simp only [bucketPairs, List.filter_cons]
        by_cases htag : e.1.tag = c
        · rw [if_pos (by simpa using htag)]
          exact (List.sublist_cons_self _ _).map _
        · rw [if_neg (by simpa using htag)]
      rcases engineStep_saved s e c with heq | ⟨hceq, _, _, heq⟩
      · exact ⟨t, by rw [List.foldl_cons, ht, heq], hsub.trans hq⟩
      · refine ⟨(e.1.idx, e.1.line) :: t, ?_, ?_⟩
        · rw [List.foldl_cons, ht, heq]; simp
        · have hbp : bucketPairs c (e :: q) = (e.1.idx, e.1.line) :: bucketPairs c q := by
            simp [bucketPairs, List.filter_cons, hceq.symm]
          rw [hbp]
          exact hsub.cons₂ _

theorem engineRun_saved_sublist (events : List (Cand × Verdict)) (c : String) :
    ((engineRun events).saved c).Sublist (bucketPairs c events) := by
  obtain ⟨t, ht, hsub⟩ := foldl_saved_sublist events initState c
  rw [engineRun] at *
  rw [ht]
  simpa [initState] using hsub

/-- The loop's exit flag always agrees with `allQuotasMet` of the current
buckets. -/
theorem foldl_stopped_eq :
    ∀ (q : List (Cand × Verdict)) (s : EngineState),
      s.stopped = allQuotasMet s.saved →
      (q.foldl engineStep s).stopped = allQuotasMet ((q.foldl engineStep s).saved)
  | [], _, h => h
  | e :: q, s, h => by
      rw [List.foldl_cons]
      refine foldl_stopped_eq q (engineStep s e) ?_
      by_cases hstop : s.stopped = true
      · rw [engineStep_of_stopped hstop]; exact h
      · simp only [engineStep, Bool.not_eq_true] at hstop ⊢
        rw [if_neg (by simp [hstop])]

theorem engineRun_stopped_eq (events : List (Cand × Verdict)) :
    (engineRun events).stopped = allQuotasMet ((engineRun events).saved) :=
  foldl_stopped_eq events initState (by decide)

end Ip2

/-! ### `save_candidates` lemmas (`ip.py`) -/

namespace Ip

theorem save_loop_cons (t : Cand) (rest : List Cand)
    (saved : String → List (Nat × String)) :
    save_loop (t :: rest) saved =
      save_loop rest
        (if (saved t.tag).length < MAX_PER_COUNTRY t.tag then
          fun k => if k = t.tag then saved t.tag ++ [(t.idx, t.line)] else saved k
        else saved) := rfl

/-- The saving loop fills bucket `c` with the first `MAX_PER_COUNTRY c`
remaining `c`-tagged candidates, in list order. -/
theorem save_loop_spec :
    ∀ (cands : List Cand) (saved : String → List (Nat × String)) (c : String),
      save_loop cands saved c =
        saved c ++ ((cands.filter fun t => decide (t.tag = c)).map
            fun t => (t.idx, t.line)).take (MAX_PER_COUNTRY c - (saved c).length)
  | [], saved, c => by simp [save_loop]
  | t :: rest, saved, c => by
      rw [save_loop_cons]
      by_cases hlen : (saved t.tag).length < MAX_PER_COUNTRY t.tag
      · rw [if_pos hlen, save_loop_spec rest _ c]
        by_cases hc : t.tag = c
        · subst hc
          simp only [eq_self_iff_true, if_true, decide_True, List.filter_cons, List.map_cons,
            List.length_append, List.length_cons, List.length_nil]
          have hsub : MAX_PER_COUNTRY t.tag - (saved t.tag).length =
              (MAX_PER_COUNTRY t.tag - ((saved t.tag).length + 0 + 1)) + 1 := by omega
          rw [hsub, List.take_succ_cons, List.append_assoc, List.singleton_append]
        · have hne : (if c = t.tag then saved t.tag ++ [(t.idx, t.line)] else saved c)
              = saved c := if_neg (fun h => hc h.symm)
          simp only [hne, List.filter_cons]
          rw [if_neg (by simpa using hc)]
      · rw [if_neg hlen, save_loop_spec rest _ c]
        by_cases hc : t.tag = c
        · subst hc
          have hz : MAX_PER_COUNTRY t.tag - (saved t.tag).length = 0 := by omega
          simp only [eq_self_iff_true, if_true, decide_True, List.filter_cons, List.map_cons,
            hz, List.take_zero]
        · simp only [List.filter_cons]
          rw [if_neg (by simpa using hc)]

theorem save_candidates_eq (cands : List Cand) (c : String) :
    save_candidates cands c =
      ((cands.filter fun t => decide (t.tag = c)).map
        fun t => (t.idx, t.line)).take (MAX_PER_COUNTRY c) := by
  rw [save_candidates, save_loop_spec]
  simp

end Ip

/-! ### Enumeration helper -/

theorem enumFrom_map_fst (l : List α) :
    ∀ n : Nat, (l.enumFrom n).map Prod.fst = List.range' n l.length := by
  induction l with
  | nil => intro n; rfl
  | cons a l ih =>
      intro n
      simp only [List.enumFrom, List.map_cons, List.length_cons, List.range'_succ, ih]

theorem enum_fst_pairwise_lt (l : List α) :
    (l.enum.map Prod.fst).Pairwise (· < ·) := by
  rw [List.enum, enumFrom_map_fst]
  exact List.pairwise_lt_range' 0 l.length

/-! ### Collector lemmas (`ip2.py`) -/

namespace Ip2

theorem collectLoop_cons_blank {geo : String → Option String} {idx : Nat} {raw : String}
    {rest : List (Nat × String)} {seen : List String} (h : strip raw = "") :
    collectLoop geo ((idx, raw) :: rest) seen = collectLoop geo rest seen := by
  simp only [collectLoop, h, eq_self_iff_true, if_true]

theorem collectLoop_cons_seen {geo : String → Option String} {idx : Nat} {raw : String}
    {rest : List (Nat × String)} {seen : List String} (h1 : strip raw ≠ "")
    (h2 : strip raw ∈ seen) :
    collectLoop geo ((idx, raw) :: rest) seen = collectLoop geo rest seen := by
  simp only [collectLoop, if_neg h1, if_pos h2]

theorem collectLoop_cons_notag {geo : String → Option String} {idx : Nat} {raw : String}
    {rest : List (Nat × String)} {seen : List String} (h1 : strip raw ≠ "")
    (h2 : strip raw ∉ seen) (h3 : primary_tag_of_line geo (strip raw) = none) :
    collectLoop geo ((idx, raw) :: rest) seen = collectLoop geo rest (strip raw :: seen) := by
  simp only [collectLoop, if_neg h1, if_neg h2, h3]

theorem collectLoop_cons_noip {geo : String → Option String} {idx : Nat} {raw : String}
    {rest : List (Nat × String)} {seen : List String} {tag : String} (h1 : strip raw ≠ "")
    (h2 : strip raw ∉ seen) (h3 : primary_tag_of_line geo (strip raw) = some tag)
    (h4 : extract_ipv4 (strip raw) = none) :
    collectLoop geo ((idx, raw) :: rest) seen = collectLoop geo rest (strip raw :: seen) := by
  simp only [collectLoop, if_neg h1, if_neg h2, h3, h4]

theorem collectLoop_cons_emit {geo : String → Option String} {idx : Nat} {raw : String}
    {rest : List (Nat × String)} {seen : List String} {tag ip : String} (h1 : strip raw ≠ "")
    (h2 : strip raw ∉ seen) (h3 : primary_tag_of_line geo (strip raw) = some tag)
    (h4 : extract_ipv4 (strip raw) = some ip) :
    collectLoop geo ((idx, raw) :: rest) seen =
      ⟨idx, strip raw, tag, ip⟩ :: collectLoop geo rest (strip raw :: seen) := by
  simp only [collectLoop, if_neg h1, if_neg h2, h3, h4]

/-- Every collected candidate's index and line come from one input pair,
its line is non-blank, and its line was not in the `seen` set. -/
theorem collectLoop_mem (geo : String → Option String) :
    ∀ (l : List (Nat × String)) (seen : List String) (c : Cand),
      c ∈ collectLoop geo l seen →
      (∃ p ∈ l, p.1 = c.idx ∧ strip p.2 = c.line) ∧ c.line ≠ "" ∧ c.line ∉ seen
  | [], _, c, hc => by simp [collectLoop] at hc
  | (idx, raw) :: rest, seen, c, hc => by
      by_cases h1 : strip raw = ""
      · rw [collectLoop_cons_blank h1] at hc
        obtain ⟨⟨p, hp, hpi, hpl⟩, hne, hns⟩ := collectLoop_mem geo rest seen c hc
        exact ⟨⟨p, List.mem_cons_of_mem _ hp, hpi, hpl⟩, hne, hns⟩
      · by_cases h2 : strip raw ∈ seen
        · rw [collectLoop_cons_seen h1 h2] at hc
          obtain ⟨⟨p, hp, hpi, hpl⟩, hne, hns⟩ := collectLoop_mem geo rest seen c hc
          exact ⟨⟨p, List.mem_cons_of_mem _ hp, hpi, hpl⟩, hne, hns⟩
        · have tail_case :
              c ∈ collectLoop geo rest (strip raw :: seen) →
              (∃ p ∈ (idx, raw) :: rest, p.1 = c.idx ∧ strip p.2 = c.line) ∧
                c.line ≠ "" ∧ c.line ∉ seen := by
            intro hc'
            obtain ⟨⟨p, hp, hpi, hpl⟩, hne, hns⟩ :=
              collectLoop_mem geo rest (strip raw :: seen) c hc'
            exact ⟨⟨p, List.mem_cons_of_mem _ hp, hpi, hpl⟩, hne,
              fun hmem => hns (List.mem_cons_of_mem _ hmem)⟩
          rcases h3 : primary_tag_of_line geo (strip raw) with _ | tag
          · rw [collectLoop_cons_notag h1 h2 h3] at hc
            exact tail_case hc
          · rcases h4 : extract_ipv4 (strip raw) with _ | ip
            · rw [collectLoop_cons_noip h1 h2 h3 h4] at hc
              exact tail_case hc
            · rw [collectLoop_cons_emit h1 h2 h3 h4] at hc
              rcases List.mem_cons.1 hc with hhead | htail
              · subst hhead
                exact ⟨⟨(idx, raw), List.mem_cons_self _ _, rfl, rfl⟩, h1, h2⟩
              · exact tail_case htail

/-- The collected lines are pairwise distinct: dedup by trimmed content. -/
theorem collectLoop_lines_nodup (geo : String → Option String) :
    ∀ (l : List (Nat × String)) (seen : List String),
      ((collectLoop geo l seen).map Cand.line).Nodup
  | [], _ => by simp [collectLoop]
  | (idx, raw) :: rest, seen => by
      by_cases h1 : strip raw = ""
      · rw [collectLoop_cons_blank h1]; exact collectLoop_lines_nodup geo rest seen
      · by_cases h2 : strip raw ∈ seen
        · rw [collectLoop_cons_seen h1 h2]; exact collectLoop_lines_nodup geo rest seen
        · rcases h3 : primary_tag_of_line geo (strip raw) with _ | tag
          · rw [collectLoop_cons_notag h1 h2 h3]
            exact collectLoop_lines_nodup geo rest _
          · rcases h4 : extract_ipv4 (strip raw) with _ | ip
            · rw [collectLoop_cons_noip h1 h2 h3 h4]
              exact collectLoop_lines_nodup geo rest _
            · rw [collectLoop_cons_emit h1 h2 h3 h4]
              simp only [List.map_cons, List.nodup_cons]
              refine ⟨?_, collectLoop_lines_nodup geo rest _⟩
              intro hmem
              obtain ⟨c, hc, hcl⟩ := List.mem_map.1 hmem
              have := (collectLoop_mem geo rest (strip raw :: seen) c hc).2.2
              exact this (hcl ▸ List.mem_cons_self _ _)

/-- A collected candidate's index is minimal among the positions of its
trimmed content: the first occurrence wins. -/
theorem collectLoop_first (geo : String → Option String) :
    ∀ (l : List (Nat × String)) (seen : List String) (c : Cand),
      (l.map Prod.fst).Pairwise (· ≤ ·) →
      c ∈ collectLoop geo l seen →
      ∀ p ∈ l, strip p.2 = c.line → c.idx ≤ p.1
  | [], _, _, _, hc => by simp [collectLoop] at hc
  | (idx, raw) :: rest, seen, c, hpw, hc => by
      have hpw' : (rest.map Prod.fst).Pairwise (· ≤ ·) :=
        (List.pairwise_cons.1 (by simpa using hpw)).2
      have hle : ∀ i ∈ rest.map Prod.fst, idx ≤ i :=
        (List.pairwise_cons.1 (by simpa using hpw)).1
      by_cases h1 : strip raw = ""
      · rw [collectLoop_cons_blank h1] at hc
        intro p hp hpt
        have hmem := collectLoop_mem geo rest seen c hc
        rcases List.mem_cons.1 hp with rfl | hp'
        · exact absurd (hpt.symm.trans h1) hmem.2.1
        · exact collectLoop_first geo rest seen c hpw' hc p hp' hpt
      · by_cases h2 : strip raw ∈ seen
        · rw [collectLoop_cons_seen h1 h2] at hc
          intro p hp hpt
          have hmem := collectLoop_mem geo rest seen c hc
          rcases List.mem_cons.1 hp with rfl | hp'
          · exact absurd (hpt ▸ h2) hmem.2.2
          · exact collectLoop_first geo rest seen c hpw' hc p hp' hpt
        · have tail_case :
              c ∈ collectLoop geo rest (strip raw :: seen) →
              ∀ p ∈ (idx, raw) :: rest, strip p.2 = c.line → c.idx ≤ p.1 := by
            intro hc' p hp hpt
            have hmem := collectLoop_mem geo rest (strip raw :: seen) c hc'
            rcases List.mem_cons.1 hp with rfl | hp'
            · exact absurd (hpt ▸ List.mem_cons_self _ _) hmem.2.2
            · exact collectLoop_first geo rest _ c hpw' hc' p hp' hpt
          rcases h3 : primary_tag_of_line geo (strip raw) with _ | tag
          · rw [collectLoop_cons_notag h1 h2 h3] at hc
            exact tail_case hc
          · rcases h4 : extract_ipv4 (strip raw) with _ | ip
            · rw [collectLoop_cons_noip h1 h2 h3 h4] at hc
              exact tail_case hc
            · rw [collectLoop_cons_emit h1 h2 h3 h4] at hc
              rcases List.mem_cons.1 hc with hhead | htail
              · subst hhead
                intro p hp _
                rcases List.mem_cons.1 hp with rfl | hp'
                · exact Nat.le_refl _
                · exact hle p.1 (List.mem_map_of_mem Prod.fst hp')
              · exact tail_case htail

/-- The collected indices form a sublist of the input positions. -/
theorem collectLoop_idx_sublist (geo : String → Option String) :
    ∀ (l : List (Nat × String)) (seen : List String),
      ((collectLoop geo l seen).map Cand.idx).Sublist (l.map Prod.fst)
  | [], _ => by simp [collectLoop]
  | (idx, raw) :: rest, seen => by
      by_cases h1 : strip raw = ""
      · rw [collectLoop_cons_blank h1]
        exact (collectLoop_idx_sublist geo rest seen).trans (List.sublist_cons_self _ _)
      · by_cases h2 : strip raw ∈ seen
        · rw [collectLoop_cons_seen h1 h2]
          exact (collectLoop_idx_sublist geo rest seen).trans (List.sublist_cons_self _ _)
        · rcases h3 : primary_tag_of_line geo (strip raw) with _ | tag
          · rw [collectLoop_cons_notag h1 h2 h3]
            exact (collectLoop_idx_sublist geo rest _).trans (List.sublist_cons_self _ _)
          · rcases h4 : extract_ipv4 (strip raw) with _ | ip
            · rw [collectLoop_cons_noip h1 h2 h3 h4]
              exact (collectLoop_idx_sublist geo rest _).trans (List.sublist_cons_self _ _)
            · rw [collectLoop_cons_emit h1 h2 h3 h4]
              simpa using (collectLoop_idx_sublist geo rest (strip raw :: seen)).cons₂ idx

theorem collect_candidates_mem {geo : String → Option String} {text : String} {c : Cand}
    (hc : c ∈ collect_candidates geo text) :
    (∃ raw ∈ splitlines text, strip raw = c.line) ∧ c.line ≠ "" := by
  obtain ⟨⟨p, hp, _, hpl⟩, hne, _⟩ := collectLoop_mem geo _ [] c hc
  exact ⟨⟨p.2, List.snd_mem_of_mem_enum hp, hpl⟩, hne⟩

theorem collect_candidates_lines_nodup (geo : String → Option String) (text : String) :
    ((collect_candidates geo text).map Cand.line).Nodup :=
  collectLoop_lines_nodup geo _ []

theorem collect_candidates_idx_pairwise (geo : String → Option String) (text : String) :
    ((collect_candidates geo text).map Cand.idx).Pairwise (· < ·) :=
  (enum_fst_pairwise_lt (splitlines text)).sublist (collectLoop_idx_sublist geo _ [])

end Ip2

/-! ### Collector lemmas (`ip.py`) -/

namespace Ip

theorem collectLoop_cons_blank_ip {idx : Nat} {raw : String}
    {rest : List (Nat × String)} {seen : List String} (h : strip raw = "") :
    collectLoop ((idx, raw) :: rest) seen = collectLoop rest seen := by
  simp only [collectLoop, h, eq_self_iff_true, if_true]

theorem collectLoop_cons_nosearch_ip {idx : Nat} {raw : String}
    {rest : List (Nat × String)} {seen : List String} (h1 : strip raw ≠ "")
    (h2 : patTagSearch (strip raw).data = false) :
    collectLoop ((idx, raw) :: rest) seen = collectLoop rest seen := by
  simp only [collectLoop, if_neg h1, h2, eq_self_iff_true, if_true]

theorem collectLoop_cons_seen_ip {idx : Nat} {raw : String}
    {rest : List (Nat × String)} {seen : List String} (h1 : strip raw ≠ "")
    (h2 : patTagSearch (strip raw).data = true) (h3 : strip raw ∈ seen) :
    collectLoop ((idx, raw) :: rest) seen = collectLoop rest seen := by
  simp only [collectLoop, if_neg h1, h2, if_pos h3]
  simp

theorem collectLoop_cons_notag_ip {idx : Nat} {raw : String}
    {rest : List (Nat × String)} {seen : List String} (h1 : strip raw ≠ "")
    (h2 : patTagSearch (strip raw).data = true) (h3 : strip raw ∉ seen)
    (h4 : primary_tag_of_line (strip raw) = none) :
    collectLoop ((idx, raw) :: rest) seen = collectLoop rest (strip raw :: seen) := by
  simp only [collectLoop, if_neg h1, h2, if_neg h3, h4]
  simp

theorem collectLoop_cons_noip_ip {idx : Nat} {raw : String}
    {rest : List (Nat × String)} {seen : List String} {tag : String} (h1 : strip raw ≠ "")
    (h2 : patTagSearch (strip raw).data = true) (h3 : strip raw ∉ seen)
    (h4 : primary_tag_of_line (strip raw) = some tag) (h5 : extract_ipv4 (strip raw) = none) :
    collectLoop ((idx, raw) :: rest) seen = collectLoop rest (strip raw :: seen) := by
  simp only [collectLoop, if_neg h1, h2, if_neg h3, h4, h5]
  simp

theorem collectLoop_cons_emit_ip {idx : Nat} {raw : String}
    {rest : List (Nat × String)} {seen : List String} {tag ip : String} (h1 : strip raw ≠ "")
    (h2 : patTagSearch (strip raw).data = true) (h3 : strip raw ∉ seen)
    (h4 : primary_tag_of_line (strip raw) = some tag) (h5 : extract_ipv4 (strip raw) = some ip) :
    collectLoop ((idx, raw) :: rest) seen =
      ⟨idx, strip raw, tag⟩ :: collectLoop rest (strip raw :: seen) := by
  simp only [collectLoop, if_neg h1, h2, if_neg h3, h4, h5]
  simp

/-- Every candidate collected by `ip.py` comes from one input pair, has a
non-blank line matching the tag pattern, and its line was unseen. -/
theorem collectLoop_mem_ip :
    ∀ (l : List (Nat × String)) (seen : List String) (c : Cand),
      c ∈ collectLoop l seen →
      (∃ p ∈ l, p.1 = c.idx ∧ strip p.2 = c.line) ∧ c.line ≠ "" ∧
        patTagSearch c.line.data = true ∧ c.line ∉ seen
  | [], _, c, hc => by simp [collectLoop] at hc
  | (idx, raw) :: rest, seen, c, hc => by
      have hweak : ∀ seen' : List String, c ∈ collectLoop rest seen' →
          (∀ x, x ∈ seen → x ∈ seen') →
          (∃ p ∈ (idx, raw) :: rest, p.1 = c.idx ∧ strip p.2 = c.line) ∧ c.line ≠ "" ∧
            patTagSearch c.line.data = true ∧ c.line ∉ seen := by
        intro seen' hc' hss
        obtain ⟨⟨p, hp, hpi, hpl⟩, hne, hpt, hns⟩ := collectLoop_mem_ip rest seen' c hc'
        exact ⟨⟨p, List.mem_cons_of_mem _ hp, hpi, hpl⟩, hne, hpt,
          fun hmem => hns (hss _ hmem)⟩
      by_cases h1 : strip raw = ""
      · rw [collectLoop_cons_blank_ip h1] at hc
        exact hweak seen hc fun _ h => h
      · by_cases h2 : patTagSearch (strip raw).data = true
        · by_cases h3 : strip raw ∈ seen
          · rw [collectLoop_cons_seen_ip h1 h2 h3] at hc
            exact hweak seen hc fun _ h => h
          · rcases h4 : primary_tag_of_line (strip raw) with _ | tag
            · rw [collectLoop_cons_notag_ip h1 h2 h3 h4] at hc
              exact hweak _ hc fun _ h => List.mem_cons_of_mem _ h
            · rcases h5 : extract_ipv4 (strip raw) with _ | ip
              · rw [collectLoop_cons_noip_ip h1 h2 h3 h4 h5] at hc
                exact hweak _ hc fun _ h => List.mem_cons_of_mem _ h
              · rw [collectLoop_cons_emit_ip h1 h2 h3 h4 h5] at hc
                rcases List.mem_cons.1 hc with hhead | htail
                · subst hhead
                  exact ⟨⟨(idx, raw), List.mem_cons_self _ _, rfl, rfl⟩, h1, h2, h3⟩
                · exact hweak _ htail fun _ h => List.mem_cons_of_mem _ h
        · rw [collectLoop_cons_nosearch_ip h1 (Bool.eq_false_iff.2 h2)] at hc
          exact hweak seen hc fun _ h => h

/-- `ip.py` dedups by trimmed content: collected lines pairwise distinct. -/
theorem collectLoop_lines_nodup_ip :
    ∀ (l : List (Nat × String)) (seen : List String),
      ((collectLoop l seen).map Cand.line).Nodup
  | [], _ => by simp [collectLoop]
  | (idx, raw) :: rest, seen => by
      by_cases h1 : strip raw = ""
      · rw [collectLoop_cons_blank_ip h1]; exact collectLoop_lines_nodup_ip rest seen
      · by_cases h2 : patTagSearch (strip raw).data = true
        · by_cases h3 : strip raw ∈ seen
          · rw [collectLoop_cons_seen_ip h1 h2 h3]; exact collectLoop_lines_nodup_ip rest seen
          · rcases h4 : primary_tag_of_line (strip raw) with _ | tag
            · rw [collectLoop_cons_notag_ip h1 h2 h3 h4]
              exact collectLoop_lines_nodup_ip rest _
            · rcases h5 : extract_ipv4 (strip raw) with _ | ip
              · rw [collectLoop_cons_noip_ip h1 h2 h3 h4 h5]
                exact collectLoop_lines_nodup_ip rest _
              · rw [collectLoop_cons_emit_ip h1 h2 h3 h4 h5]
                simp only [List.map_cons, List.nodup_cons]
                refine ⟨?_, collectLoop_lines_nodup_ip rest _⟩
                intro hmem
                obtain ⟨c, hc, hcl⟩ := List.mem_map.1 hmem
                have := (collectLoop_mem_ip rest (strip raw :: seen) c hc).2.2.2
                exact this (hcl ▸ List.mem_cons_self _ _)
        · rw [collectLoop_cons_nosearch_ip h1 (Bool.eq_false_iff.2 h2)]
          exact collectLoop_lines_nodup_ip rest seen

/-- First occurrence wins in `ip.py`: a collected candidate's index is
minimal among the positions of its trimmed content. -/
theorem collectLoop_first_ip :
    ∀ (l : List (Nat × String)) (seen : List String) (c : Cand),
      (l.map Prod.fst).Pairwise (· ≤ ·) →
      c ∈ collectLoop l seen →
      ∀ p ∈ l, strip p.2 = c.line → c.idx ≤ p.1
  | [], _, _, _, hc => by simp [collectLoop] at hc
  | (idx, raw) :: rest, seen, c, hpw, hc => by
      have hpw' : (rest.map Prod.fst).Pairwise (· ≤ ·) :=
        (List.pairwise_cons.1 (by simpa using hpw)).2
      have hle : ∀ i ∈ rest.map Prod.fst, idx ≤ i :=
        (List.pairwise_cons.1 (by simpa using hpw)).1
      by_cases h1 : strip raw = ""
      · rw [collectLoop_cons_blank_ip h1] at hc
        intro p hp hpt
        have hmem := collectLoop_mem_ip rest seen c hc
        rcases List.mem_cons.1 hp with rfl | hp'
        · exact absurd (hpt.symm.trans h1) hmem.2.1
        · exact collectLoop_first_ip rest seen c hpw' hc p hp' hpt
      · by_cases h2 : patTagSearch (strip raw).data = true
        · by_cases h3 : strip raw ∈ seen
          · rw [collectLoop_cons_seen_ip h1 h2 h3] at hc
            intro p hp hpt
            have hmem := collectLoop_mem_ip rest seen c hc
            rcases List.mem_cons.1 hp with rfl | hp'
            · exact absurd (hpt ▸ h3) hmem.2.2.2
            · exact collectLoop_first_ip rest seen c hpw' hc p hp' hpt
          · have tail_case :
                c ∈ collectLoop rest (strip raw :: seen) →
                ∀ p ∈ (idx, raw) :: rest, strip p.2 = c.line → c.idx ≤ p.1 := by
              intro hc' p hp hpt
              have hmem := collectLoop_mem_ip rest (strip raw :: seen) c hc'
              rcases List.mem_cons.1 hp with rfl | hp'
              · exact absurd (hpt ▸ List.mem_cons_self _ _) hmem.2.2.2
              · exact collectLoop_first_ip rest _ c hpw' hc' p hp' hpt
            rcases h4 : primary_tag_of_line (strip raw) with _ | tag
            · rw [collectLoop_cons_notag_ip h1 h2 h3 h4] at hc
              exact tail_case hc
            · rcases h5 : extract_ipv4 (strip raw) with _ | ip
              · rw [collectLoop_cons_noip_ip h1 h2 h3 h4 h5] at hc
                exact tail_case hc
              · rw [collectLoop_cons_emit_ip h1 h2 h3 h4 h5] at hc
                rcases List.mem_cons.1 hc with hhead | htail
                · subst hhead
                  intro p hp _
                  rcases List.mem_cons.1 hp with rfl | hp'
                  · exact Nat.le_refl _
                  · exact hle p.1 (List.mem_map_of_mem Prod.fst hp')
                · exact tail_case htail
        · rw [collectLoop_cons_nosearch_ip h1 (Bool.eq_false_iff.2 h2)] at hc
          intro p hp hpt
          have hmem := collectLoop_mem_ip rest seen c hc
          rcases List.mem_cons.1 hp with rfl | hp'
          · exact absurd (hpt ▸ hmem.2.2.1) (by simpa using h2)
          · exact collectLoop_first_ip rest seen c hpw' hc p hp' hpt

/-- The collected indices of `ip.py` form a sublist of input positions. -/
theorem collectLoop_idx_sublist_ip :
    ∀ (l : List (Nat × String)) (seen : List String),
      ((collectLoop l seen).map Cand.idx).Sublist (l.map Prod.fst)
  | [], _ => by simp [collectLoop]
  | (idx, raw) :: rest, seen => by
      by_cases h1 : strip raw = ""
      · rw [collectLoop_cons_blank_ip h1]
        exact (collectLoop_idx_sublist_ip rest seen).trans (List.sublist_cons_self _ _)
      · by_cases h2 : patTagSearch (strip raw).data = true
        · by_cases h3 : strip raw ∈ seen
          · rw [collectLoop_cons_seen_ip h1 h2 h3]
            exact (collectLoop_idx_sublist_ip rest seen).trans (List.sublist_cons_self _ _)
          · rcases h4 : primary_tag_of_line (strip raw) with _ | tag
            · rw [collectLoop_cons_notag_ip h1 h2 h3 h4]
              exact (collectLoop_idx_sublist_ip rest _).trans (List.sublist_cons_self _ _)
            · rcases h5 : extract_ipv4 (strip raw) with _ | ip
              · rw [collectLoop_cons_noip_ip h1 h2 h3 h4 h5]
                exact (collectLoop_idx_sublist_ip rest _).trans (List.sublist_cons_self _ _)
              · rw [collectLoop_cons_emit_ip h1 h2 h3 h4 h5]
                simpa using (collectLoop_idx_sublist_ip rest (strip raw :: seen)).cons₂ idx
        · rw [collectLoop_cons_nosearch_ip h1 (Bool.eq_false_iff.2 h2)]
          exact (collectLoop_idx_sublist_ip rest seen).trans (List.sublist_cons_self _ _)

theorem collect_candidates_mem_ip {text : String} {c : Cand}
    (hc : c ∈ collect_candidates text) :
    (∃ raw ∈ splitlines text, strip raw = c.line) ∧ c.line ≠ "" := by
  obtain ⟨⟨p, hp, _, hpl⟩, hne, _⟩ := collectLoop_mem_ip _ [] c hc
  exact ⟨⟨p.2, List.snd_mem_of_mem_enum hp, hpl⟩, hne⟩

theorem collect_candidates_lines_nodup_ip (text : String) :
    ((collect_candidates text).map Cand.line).Nodup :=
  collectLoop_lines_nodup_ip _ []

theorem collect_candidates_idx_pairwise_ip (text : String) :
    ((collect_candidates text).map Cand.idx).Pairwise (· < ·) :=
  (enum_fst_pairwise_lt (splitlines text)).sublist (collectLoop_idx_sublist_ip _ [])

end Ip

/-! ### Extraction lemmas -/

theorem splitDigits_append :
    ∀ (n : Nat) (cs d r : List Char), splitDigits n cs = some (d, r) → cs = d ++ r
  | 0, cs, d, r, h => by
      simp only [splitDigits, Option.some.injEq, Prod.mk.injEq] at h
      rw [← h.1, ← h.2]; rfl
  | n + 1, [], d, r, h => by simp [splitDigits] at h
  | n + 1, c :: cs, d, r, h => by
      simp only [splitDigits] at h
      by_cases hd : c.isDigit
      · rw [if_pos hd] at h
        cases hsd : splitDigits n cs with
        | none => rw [hsd] at h; cases h
        | some p =>
            rw [hsd] at h
            simp only [Option.map_some', Option.some.injEq, Prod.mk.injEq] at h
            have := splitDigits_append n cs p.1 p.2 (by rw [hsd])
            rw [← h.1, ← h.2, this]
            rfl
      · rw [if_neg hd] at h; cases h

theorem some_orElse_eq {α : Type} (a : α) (f : Unit → Option α) :
    (some a).orElse f = some a := rfl

theorem none_orElse_eq {α : Type} (f : Unit → Option α) :
    (none : Option α).orElse f = f () := rfl

theorem takeOctet_append {cs d r : List Char} (h : takeOctet cs = some (d, r)) :
    cs = d ++ r := by
  rw [takeOctet] at h
  cases h3 : splitDigits 3 cs with
  | some p =>
      simp only [h3, some_orElse_eq, Option.some.injEq] at h
      exact splitDigits_append 3 cs d r (by rw [h3, h])
  | none =>
      simp only [h3, none_orElse_eq] at h
      cases h2 : splitDigits 2 cs with
      | some p =>
          simp only [h2, some_orElse_eq, Option.some.injEq] at h
          exact splitDigits_append 2 cs d r (by rw [h2, h])
      | none =>
          simp only [h2, none_orElse_eq] at h
          exact splitDigits_append 1 cs d r h

theorem tryDotF_append {rec : List Char → Option (List Char)}
    (hrec : ∀ cs' m', rec cs' = some m' → ∃ r, cs' = m' ++ r)
    (n : Nat) (cs m : List Char) (h : tryDotF rec n cs = some m) :
    ∃ r, cs = m ++ r := by
  rw [tryDotF] at h
  split at h
  · exact absurd h (by simp)
  · exact absurd h (by simp)
  · rename_i d c r heq
    split at h
    · rename_i hdot
      subst hdot
      split at h
      · rename_i m' hm
        obtain ⟨r', hr'⟩ := hrec r m' hm
        have hcs : cs = d ++ '.' :: r := splitDigits_append n cs d _ heq
        refine ⟨r', ?_⟩
        simp only [Option.some.injEq] at h
        rw [hcs, ← h, hr']
        simp
      · exact absurd h (by simp)
    · exact absurd h (by simp)

theorem matchQuad_append :
    ∀ (k : Nat) (cs m : List Char), matchQuad k cs = some m → ∃ r, cs = m ++ r
  | 0, cs, m, h => by
      rw [matchQuad] at h
      cases ht : takeOctet cs with
      | none => rw [ht] at h; cases h
      | some p =>
          rw [ht] at h
          simp only [Option.map_some', Option.some.injEq] at h
          exact ⟨p.2, by rw [← h]; exact takeOctet_append (by rw [ht])⟩
  | k + 1, cs, m, h => by
      rw [matchQuad] at h
      cases h3 : tryDotF (matchQuad k) 3 cs with
      | some q =>
          simp only [h3, some_orElse_eq, Option.some.injEq] at h
          exact tryDotF_append (matchQuad_append k) 3 cs m (h ▸ h3)
      | none =>
          simp only [h3, none_orElse_eq] at h
          cases h2 : tryDotF (matchQuad k) 2 cs with
          | some q =>
              simp only [h2, some_orElse_eq, Option.some.injEq] at h
              exact tryDotF_append (matchQuad_append k) 2 cs m (h ▸ h2)
          | none =>
              simp only [h2, none_orElse_eq] at h
              exact tryDotF_append (matchQuad_append k) 1 cs m h

theorem searchQuad_infix :
    ∀ (cs m : List Char), searchQuad cs = some m → ∃ p r, cs = p ++ m ++ r
  | [], m, h => by simp [searchQuad] at h
  | c :: t, m, h => by
      rw [searchQuad] at h
      cases hm : matchQuad 3 (c :: t) with
      | some q =>
          simp only [hm, some_orElse_eq, Option.some.injEq] at h
          obtain ⟨r, hr⟩ := matchQuad_append 3 (c :: t) m (h ▸ hm)
          exact ⟨[], r, by simpa using hr⟩
      | none =>
          simp only [hm, none_orElse_eq] at h
          obtain ⟨p, r, hp⟩ := searchQuad_infix t m h
          exact ⟨c :: p, r, by simp [hp]⟩

/-- A successful extraction returns exactly the leftmost `RE_IPV4` match,
which is a substring of the line, and every dot-separated component of it
passed the `[0, 255]` check. -/
theorem extract_ipv4_eq_some {line ip : String} (h : extract_ipv4 line = some ip) :
    searchQuad line.data = some ip.data ∧
      (splitDot ip.data).all validOctet = true ∧
      ∃ p r, line.data = p ++ ip.data ++ r := by
  rw [extract_ipv4] at h
  cases hq : searchQuad line.data with
  | none => rw [hq] at h; cases h
  | some quad =>
      rw [hq] at h
      simp only at h
      by_cases hv : (splitDot quad).all validOctet = true
      · rw [if_pos hv] at h
        obtain rfl : (⟨quad⟩ : String) = ip := by injection h
        refine ⟨rfl, hv, ?_⟩
        show ∃ p r, line.data = p ++ quad ++ r
        exact searchQuad_infix _ _ hq
      · rw [if_neg hv] at h; cases h

/-! ### Claim theorems -/

/-- **C1**: for every country, the number of accepted lines never exceeds
its configured quota — after any sequence of consumed verdicts in the
engine (`ip2.py`), in the buckets `run_concurrent_tests` returns, and in
the buckets `save_candidates` builds (`ip.py`); and an entry is appended
to a bucket only when the bucket is strictly below its quota (both
files). -/
theorem quota_never_exceeded :
    (∀ (events : List (Ip2.Cand × Ip2.Verdict)) (c : String),
        ((Ip2.engineRun events).saved c).length ≤ Ip2.MAX_PER_COUNTRY c) ∧
    (∀ (events : List (Ip2.Cand × Ip2.Verdict)) (c : String),
        ((Ip2.run_concurrent_tests events).1 c).length ≤ Ip2.MAX_PER_COUNTRY c) ∧
    (∀ (cands : List Ip.Cand) (c : String),
        (Ip.save_candidates cands c).length ≤ Ip.MAX_PER_COUNTRY c) ∧
    (∀ (s : Ip2.EngineState) (ev : Ip2.Cand × Ip2.Verdict),
        (Ip2.engineStep s ev).saved ev.1.tag ≠ s.saved ev.1.tag →
        (s.saved ev.1.tag).length < Ip2.MAX_PER_COUNTRY ev.1.tag ∧
        (Ip2.engineStep s ev).saved ev.1.tag = s.saved ev.1.tag ++ [(ev.1.idx, ev.1.line)]) ∧
    (∀ (t : Ip.Cand) (rest : List Ip.Cand) (saved : String → List (Nat × String)),
        ¬ (saved t.tag).length < Ip.MAX_PER_COUNTRY t.tag →
        Ip.save_loop (t :: rest) saved = Ip.save_loop rest saved) := by
  refine ⟨Ip2.engineRun_saved_le, ?_, ?_, ?_, ?_⟩
  · intro events c
    show (Ip2.sortByIdx ((Ip2.engineRun events).saved c)).length ≤ Ip2.MAX_PER_COUNTRY c
    rw [Ip2.sortByIdx, (List.perm_insertionSort _ _).length_eq]
    exact Ip2.engineRun_saved_le events c
  · intro cands c
    rw [Ip.save_candidates_eq]
    exact List.length_take_le _ _
  · intro s ev hne
    rcases Ip2.engineStep_saved s ev ev.1.tag with heq | ⟨_, _, hlt, heq⟩
    · exact absurd heq hne
    · exact ⟨hlt, heq⟩
  · intro t rest saved h
    rw [Ip.save_loop_cons, if_neg h]

/-- Witness for `quota_never_exceeded`: a reachable probe for an empty
`sg` bucket is appended (bucket was strictly below quota), and a `tw`
candidate arriving at a full `tw` bucket leaves the saving loop's state
unchanged. -/
theorem quota_never_exceeded_witness :
    ((Ip2.initState.saved cand0.tag).length < Ip2.MAX_PER_COUNTRY cand0.tag ∧
      (Ip2.engineStep Ip2.initState (cand0, Ip2.Verdict.reachable)).saved cand0.tag =
        Ip2.initState.saved cand0.tag ++ [(cand0.idx, cand0.line)]) ∧
    Ip.save_loop [⟨7, "full", "tw"⟩] (fun _ => List.replicate 10 (0, "x")) =
      Ip.save_loop [] (fun _ => List.replicate 10 (0, "x")) :=
  ⟨quota_never_exceeded.2.2.2.1 Ip2.initState (cand0, Ip2.Verdict.reachable) (by decide),
   quota_never_exceeded.2.2.2.2 ⟨7, "full", "tw"⟩ [] _ (by decide)⟩

/-- **C2**: once a consumed verdict makes every recognized country's
bucket full, the engine stops: any verdicts that would have arrived later
leave the returned state (buckets and tested count) exactly as it was at
the stop decision, and the tested count stays strictly below the total
number of submitted probes.  (The cancellation request itself is I/O on
the pending futures; its observable contract — no later verdict mutates
any bucket — is the equality proved here.) -/
theorem early_stop_on_quotas (p q : List (Ip2.Cand × Ip2.Verdict))
    (hfull : Ip2.allQuotasMet (Ip2.engineRun p).saved = true) (hq : q ≠ []) :
    Ip2.engineRun (p ++ q) = Ip2.engineRun p ∧
      (Ip2.engineRun (p ++ q)).tested < (p ++ q).length := by
  have hstop : (Ip2.engineRun p).stopped = true :=
    (Ip2.engineRun_stopped_eq p).trans hfull
  have heq : Ip2.engineRun (p ++ q) = Ip2.engineRun p := by
    rw [Ip2.engineRun_append, Ip2.foldl_engineStep_of_stopped hstop]
  refine ⟨heq, ?_⟩
  rw [heq]
  have h1 : (Ip2.engineRun p).tested ≤ p.length := by
    have h := Ip2.foldl_tested_le p Ip2.initState
    simpa [Ip2.engineRun, Ip2.initState] using h
  have h2 : 0 < q.length := List.length_pos.2 hq
  simp only [List.length_append]
  omega

set_option maxRecDepth 40000 in
/-- Witness for `early_stop_on_quotas`: after `fullEvents` fills all six
quotas, a late verdict changes nothing and the tested count stays below
the total. -/
theorem early_stop_on_quotas_witness :
    Ip2.engineRun (fullEvents ++ [extraEvent]) = Ip2.engineRun fullEvents ∧
      (Ip2.engineRun (fullEvents ++ [extraEvent])).tested <
        (fullEvents ++ [extraEvent]).length :=
  early_stop_on_quotas fullEvents [extraEvent] (by decide) (by decide)

/-- **C3**: a probe that raised an exception is treated as unreachable:
the event mutates no bucket, is counted in `tested` exactly like any
completed probe, and the loop goes on consuming the remaining verdicts
(the run never aborts). -/
theorem probe_error_is_unreachable (p : List (Ip2.Cand × Ip2.Verdict)) (cand : Ip2.Cand)
    (q : List (Ip2.Cand × Ip2.Verdict)) :
    Ip2.engineRun (p ++ (cand, Ip2.Verdict.error) :: q) =
      q.foldl Ip2.engineStep (Ip2.engineStep (Ip2.engineRun p) (cand, Ip2.Verdict.error)) ∧
    ((Ip2.engineRun p).stopped = false →
      (Ip2.engineStep (Ip2.engineRun p) (cand, Ip2.Verdict.error)).saved
          = (Ip2.engineRun p).saved ∧
      (Ip2.engineStep (Ip2.engineRun p) (cand, Ip2.Verdict.error)).tested
          = (Ip2.engineRun p).tested + 1) := by
  constructor
  · rw [Ip2.engineRun_append]; rfl
  · intro hs
    constructor <;> simp [Ip2.engineStep, hs, Ip2.verdictOk]

/-- Witness for `probe_error_is_unreachable`: a failing probe as the very
first completion leaves the empty buckets unchanged and counts one test. -/
theorem probe_error_is_unreachable_witness :
    (Ip2.engineStep (Ip2.engineRun []) (cand0, Ip2.Verdict.error)).saved
        = (Ip2.engineRun []).saved ∧
      (Ip2.engineStep (Ip2.engineRun []) (cand0, Ip2.Verdict.error)).tested
        = (Ip2.engineRun []).tested + 1 :=
  (probe_error_is_unreachable [] cand0 []).2 (by decide)

/-- **C8**: on every state the engine can actually be in, the quota
predicate `allQuotasMet` (written with `>=` in the source) holds exactly
when every recognized country's bucket size equals its configured
capacity, because bucket sizes can never exceed their caps. -/
theorem allQuotasMet_iff_buckets_full (events : List (Ip2.Cand × Ip2.Verdict)) :
    Ip2.allQuotasMet (Ip2.engineRun events).saved = true ↔
      ∀ c ∈ COUNTRIES, ((Ip2.engineRun events).saved c).length = Ip2.MAX_PER_COUNTRY c := by
  rw [Ip2.allQuotasMet, List.all_eq_true]
  constructor
  · intro h c hc
    have h1 := h c hc
    rw [decide_eq_true_eq] at h1
    have h2 := Ip2.engineRun_saved_le events c
    omega
  · intro h c hc
    rw [decide_eq_true_eq, h c hc]

set_option maxRecDepth 40000 in
/-- Witness for `allQuotasMet_iff_buckets_full`: after `fullEvents`, the
predicate holds and the `sg` bucket is exactly at capacity. -/
theorem allQuotasMet_iff_buckets_full_witness :
    ((Ip2.engineRun fullEvents).saved "sg").length = Ip2.MAX_PER_COUNTRY "sg" :=
  (allQuotasMet_iff_buckets_full fullEvents).mp (by decide) "sg" (by decide)

/-- **C10**: without reachability probing (`ip.py`), the bucket of each
country `c` consists of exactly the first `MAX_PER_COUNTRY c` candidates
tagged `c`, in candidate-list order — a pure, deterministic function of
the candidate list. -/
theorem save_without_probe_take (cands : List Ip.Cand) (c : String) :
    Ip.save_candidates cands c =
      ((cands.filter fun t => decide (t.tag = c)).map fun t => (t.idx, t.line)).take
        (Ip.MAX_PER_COUNTRY c) :=
  Ip.save_candidates_eq cands c

/-- **C4**: the assembled output is the concatenation of the per-country
groups in the fixed priority order `COUNTRIES = [sg, hk, jp, tw, kr, us]`,
and within each country's group the entries are in ascending
original-input-index order — for `ip2.py` (buckets returned by
`run_concurrent_tests`, sorted on index) and for `ip.py` (buckets built in
candidate order, whose indices are strictly increasing), so two lines of
one country keep their relative input order. -/
theorem output_grouped_priority_sorted :
    (∀ events : List (Ip2.Cand × Ip2.Verdict),
        Ip2.write_output (Ip2.run_concurrent_tests events).1 =
          (COUNTRIES.map fun c =>
            ((Ip2.run_concurrent_tests events).1 c).map Prod.snd).flatten ∧
        ∀ c : String,
          ((Ip2.run_concurrent_tests events).1 c).Pairwise fun a b => a.1 ≤ b.1) ∧
    (∀ text : String,
        Ip.savedLines (Ip.save_candidates (Ip.collect_candidates text)) =
          (COUNTRIES.map fun c =>
            (Ip.save_candidates (Ip.collect_candidates text) c).map Prod.snd).flatten ∧
        ∀ c : String,
          (Ip.save_candidates (Ip.collect_candidates text) c).Pairwise
            fun a b => a.1 < b.1) := by
  constructor
  · intro events
    constructor
    · rw [Ip2.write_output, List.flatMap_def]
    · intro c
      show (Ip2.sortByIdx ((Ip2.engineRun events).saved c)).Pairwise fun a b => a.1 ≤ b.1
      have htot : IsTotal (Nat × String) fun a b => a.1 ≤ b.1 :=
        ⟨fun a b => Nat.le_total a.1 b.1⟩
      have htrans : IsTrans (Nat × String) fun a b => a.1 ≤ b.1 :=
        ⟨fun _ _ _ => Nat.le_trans⟩
      exact @List.sorted_insertionSort _ _ _ htot htrans ((Ip2.engineRun events).saved c)
  · intro text
    constructor
    · rw [Ip.savedLines, List.flatMap_def]
    · intro c
      rw [Ip.save_candidates_eq]
      have h1 : (Ip.collect_candidates text).Pairwise fun a b => a.idx < b.idx :=
        List.pairwise_map.1 (Ip.collect_candidates_idx_pairwise_ip text)
      have h2 : ((Ip.collect_candidates text).filter
          fun t => decide (t.tag = c)).Pairwise fun a b => a.idx < b.idx :=
        h1.sublist (List.filter_sublist _)
      have h3 : (((Ip.collect_candidates text).filter fun t => decide (t.tag = c)).map
          fun t => (t.idx, t.line)).Pairwise fun a b => a.1 < b.1 :=
        List.pairwise_map.2 h2
      exact h3.sublist (List.take_sublist _ _)

/-- **C9**: when no input index is probed twice, the buckets returned by
`run_concurrent_tests` are already strictly sorted by index (no repeated
index), so re-sorting them is the identity and assembling from them twice
gives the identical sequence. -/
theorem buckets_presorted_idempotent (events : List (Ip2.Cand × Ip2.Verdict))
    (hnd : (events.map fun e => e.1.idx).Nodup) (c : String) :
    ((Ip2.run_concurrent_tests events).1 c).Pairwise (fun a b => a.1 < b.1) ∧
      Ip2.sortByIdx ((Ip2.run_concurrent_tests events).1 c) =
        (Ip2.run_concurrent_tests events).1 c := by
  have hsubB : (((Ip2.engineRun events).saved c).map Prod.fst).Sublist
      (events.map fun e => e.1.idx) := by
    have h1 := Ip2.engineRun_saved_sublist events c
    have h2 : ((Ip2.bucketPairs c events).map Prod.fst).Sublist
        (events.map fun e => e.1.idx) := by
      rw [Ip2.bucketPairs, List.map_map]
      have h3 := (List.filter_sublist (p := fun e : Ip2.Cand × Ip2.Verdict =>
        decide (e.1.tag = c)) events).map fun e => e.1.idx
      simpa using h3
    exact (h1.map Prod.fst).trans h2
  have hndB : (((Ip2.engineRun events).saved c).map Prod.fst).Nodup := hnd.sublist hsubB
  have hperm : List.Perm (Ip2.sortByIdx ((Ip2.engineRun events).saved c))
      ((Ip2.engineRun events).saved c) := List.perm_insertionSort _ _
  have hndS : ((Ip2.sortByIdx ((Ip2.engineRun events).saved c)).map Prod.fst).Nodup :=
    ((hperm.map Prod.fst).nodup_iff).2 hndB
  have htot : IsTotal (Nat × String) fun a b => a.1 ≤ b.1 :=
    ⟨fun a b => Nat.le_total a.1 b.1⟩
  have htrans : IsTrans (Nat × String) fun a b => a.1 ≤ b.1 :=
    ⟨fun _ _ _ => Nat.le_trans⟩
  have hsorted : (Ip2.sortByIdx ((Ip2.engineRun events).saved c)).Pairwise
      fun a b => a.1 ≤ b.1 :=
    @List.sorted_insertionSort _ _ _ htot htrans ((Ip2.engineRun events).saved c)
  have hne : (Ip2.sortByIdx ((Ip2.engineRun events).saved c)).Pairwise
      fun a b => a.1 ≠ b.1 := List.pairwise_map.1 hndS
  have hlt : (Ip2.sortByIdx ((Ip2.engineRun events).saved c)).Pairwise
      fun a b => a.1 < b.1 :=
    (hsorted.and hne).imp fun h => Nat.lt_of_le_of_ne h.1 h.2
  refine ⟨hlt, ?_⟩
  show Ip2.sortByIdx (Ip2.sortByIdx ((Ip2.engineRun events).saved c)) = _
  exact List.Sorted.insertionSort_eq hsorted

/-- Witness for `buckets_presorted_idempotent`: two `hk` completions with
out-of-order indices come back sorted and stable under re-sorting. -/
theorem buckets_presorted_idempotent_witness :
    ((Ip2.run_concurrent_tests events9).1 "hk").Pairwise (fun a b => a.1 < b.1) ∧
      Ip2.sortByIdx ((Ip2.run_concurrent_tests events9).1 "hk") =
        (Ip2.run_concurrent_tests events9).1 "hk" :=
  buckets_presorted_idempotent events9 (by decide) "hk"

/-- **C5** fails as stated: `extract_ipv4` validates only the *leftmost*
regex match.  On `"999.1.1.1 1.2.3.4"` the leftmost dotted quad is
`999.1.1.1` (component `999` out of range), so the line is dropped even
though it contains the valid dotted-quad substring `1.2.3.4`. -/
theorem extract_first_valid_counterexample :
    extract_ipv4 "999.1.1.1 1.2.3.4" = none ∧
      hasValidQuad "999.1.1.1 1.2.3.4" = true ∧
      extract_ipv4 "1.2.3.4" = some "1.2.3.4" :=
  ⟨by decide, by decide, by decide⟩

/-- **C5** amended: extraction takes the leftmost `RE_IPV4` match of the
line and keeps it only if every dot-separated component is in `[0, 255]`;
each emitted address is that leftmost match, a substring of the line, all
of whose components passed the range check. -/
theorem extract_ipv4_leftmost_match (line ip : String)
    (h : extract_ipv4 line = some ip) :
    searchQuad line.data = some ip.data ∧
      (splitDot ip.data).all validOctet = true ∧
      ∃ p r, line.data = p ++ ip.data ++ r :=
  extract_ipv4_eq_some h

/-- Witness for `extract_ipv4_leftmost_match` at a line with metadata and
a CIDR suffix. -/
theorem extract_ipv4_leftmost_match_witness :
    searchQuad ("ab 10.0.0.1/24 x" : String).data = some ("10.0.0.1" : String).data ∧
      (splitDot ("10.0.0.1" : String).data).all validOctet = true ∧
      ∃ p r, ("ab 10.0.0.1/24 x" : String).data = p ++ ("10.0.0.1" : String).data ++ r :=
  extract_ipv4_leftmost_match "ab 10.0.0.1/24 x" "10.0.0.1" (by decide)

/-- **C6**: both collectors deduplicate by exact equality of the trimmed
line: the collected lines are pairwise distinct (at most one candidate per
trimmed content), and every candidate carries the zero-based index of the
first input line whose trimmed content equals its line. -/
theorem collect_dedup_first_occurrence :
    (∀ (geo : String → Option String) (text : String),
        ((Ip2.collect_candidates geo text).map Ip2.Cand.line).Nodup ∧
        ∀ c ∈ Ip2.collect_candidates geo text,
          (∃ p ∈ (splitlines text).enum, p.1 = c.idx ∧ strip p.2 = c.line) ∧
          ∀ p ∈ (splitlines text).enum, strip p.2 = c.line → c.idx ≤ p.1) ∧
    (∀ text : String,
        ((Ip.collect_candidates text).map Ip.Cand.line).Nodup ∧
        ∀ c ∈ Ip.collect_candidates text,
          (∃ p ∈ (splitlines text).enum, p.1 = c.idx ∧ strip p.2 = c.line) ∧
          ∀ p ∈ (splitlines text).enum, strip p.2 = c.line → c.idx ≤ p.1) := by
  constructor
  · intro geo text
    refine ⟨Ip2.collect_candidates_lines_nodup geo text, ?_⟩
    intro c hc
    refine ⟨(Ip2.collectLoop_mem geo _ [] c hc).1, ?_⟩
    intro p hp hpt
    exact Ip2.collectLoop_first geo _ [] c
      ((enum_fst_pairwise_lt _).imp Nat.le_of_lt) hc p hp hpt
  · intro text
    refine ⟨Ip.collect_candidates_lines_nodup_ip text, ?_⟩
    intro c hc
    refine ⟨(Ip.collectLoop_mem_ip _ [] c hc).1, ?_⟩
    intro p hp hpt
    exact Ip.collectLoop_first_ip _ [] c
      ((enum_fst_pairwise_lt _).imp Nat.le_of_lt) hc p hp hpt

/-- Witness for `collect_dedup_first_occurrence`: in `text2` (`ip2.py`
under `geo0`) and `text1` (`ip.py`) a line occurs three times; the single
collected candidate's index `0` is at most the index `2` of a later
duplicate. -/
theorem collect_dedup_first_occurrence_witness :
    cand2.idx ≤ (2, "1.2.3.4 q").1 ∧ cand1.idx ≤ (2, "a #sg 1.2.3.4").1 :=
  ⟨((collect_dedup_first_occurrence.1 geo0 text2).2 cand2 (by decide)).2
      (2, "1.2.3.4 q") (by decide) (by decide),
   ((collect_dedup_first_occurrence.2 text1).2 cand1 (by decide)).2
      (2, "a #sg 1.2.3.4") (by decide) (by decide)⟩

/-- **C7** fails as stated: output lines are the *trimmed* input lines.
For `text0 = " 1.2.3.4 x\n"` (leading and trailing whitespace) the full
run outputs `"1.2.3.4 x"`, which is not byte-identical to any line of the
input. -/
theorem output_verbatim_counterexample :
    Ip2.write_output (Ip2.run_concurrent_tests events0).1 = ["1.2.3.4 x"] ∧
      splitlines text0 = [" 1.2.3.4 x"] ∧
      "1.2.3.4 x" ∉ splitlines text0 :=
  ⟨by decide, by decide, by decide⟩

/-- **C7** amended: when the completion events probe candidates collected
from the input (each candidate at most once), every output line is the
whitespace-trimmed form of some input line — hence appears verbatim
within the input — and no output line is duplicated. -/
theorem output_lines_trimmed_nodup (geo : String → Option String) (text : String)
    (events : List (Ip2.Cand × Ip2.Verdict))
    (hmem : ∀ e ∈ events, e.1 ∈ Ip2.collect_candidates geo text)
    (hnd : (events.map Prod.fst).Nodup) :
    (∀ l ∈ Ip2.write_output (Ip2.run_concurrent_tests events).1,
        ∃ raw ∈ splitlines text, l = strip raw) ∧
      (Ip2.write_output (Ip2.run_concurrent_tests events).1).Nodup := by
  -- provenance of a line of bucket `c`: an event tagged `c` carrying it
  have hprov : ∀ (c : String) (l : String),
      l ∈ ((Ip2.run_concurrent_tests events).1 c).map Prod.snd →
      ∃ e ∈ events, e.1.tag = c ∧ e.1.line = l := by
    intro c l hl
    obtain ⟨pr, hpr, hprl⟩ := List.mem_map.1 hl
    have hpr' : pr ∈ (Ip2.engineRun events).saved c :=
      (List.perm_insertionSort _ _).mem_iff.1 hpr
    have hpr'' : pr ∈ Ip2.bucketPairs c events :=
      (Ip2.engineRun_saved_sublist events c).mem hpr'
    obtain ⟨e, he, hee⟩ := List.mem_map.1 hpr''
    obtain ⟨hemem, hetag⟩ := List.mem_filter.1 he
    refine ⟨e, hemem, by simpa using hetag, ?_⟩
    rw [← hprl, ← hee]
  have hinj := List.inj_on_of_nodup_map (Ip2.collect_candidates_lines_nodup geo text)
  constructor
  · intro l hl
    obtain ⟨c, _, hlc⟩ := List.mem_flatMap.1 hl
    obtain ⟨e, he, _, heline⟩ := hprov c l hlc
    obtain ⟨⟨raw, hraw, hrawt⟩, _⟩ := Ip2.collect_candidates_mem (hmem e he)
    exact ⟨raw, hraw, by rw [← heline, hrawt]⟩
  · -- events carry pairwise-distinct lines
    have hlinesnd : (events.map fun e => e.1.line).Nodup := by
      have h1 : ((events.map Prod.fst).map Ip2.Cand.line).Nodup := by
        refine hnd.map_on ?_
        intro x hx y hy hxy
        obtain ⟨e, he, rfl⟩ := List.mem_map.1 hx
        obtain ⟨f, hf, rfl⟩ := List.mem_map.1 hy
        exact hinj (hmem _ he) (hmem _ hf) hxy
      simpa [List.map_map, Function.comp] using h1
    rw [Ip2.write_output, List.flatMap_def]
    rw [List.nodup_flatten]  -- buckets' line lists: each nodup, pairwise disjoint
    constructor
    · intro bl hbl
      obtain ⟨c, _, rfl⟩ := List.mem_map.1 hbl
      -- one bucket's lines form a sublist of the events' lines
      have hpermc : List.Perm (((Ip2.run_concurrent_tests events).1 c).map Prod.snd)
          (((Ip2.engineRun events).saved c).map Prod.snd) :=
        (List.perm_insertionSort _ _).map Prod.snd
      refine hpermc.nodup_iff.2 ?_
      have hsubl : (((Ip2.engineRun events).saved c).map Prod.snd).Sublist
          (events.map fun e => e.1.line) := by
        have h1 := (Ip2.engineRun_saved_sublist events c).map Prod.snd
        have h2 : ((Ip2.bucketPairs c events).map Prod.snd).Sublist
            (events.map fun e => e.1.line) := by
          rw [Ip2.bucketPairs, List.map_map]
          have h3 := (List.filter_sublist (p := fun e : Ip2.Cand × Ip2.Verdict =>
            decide (e.1.tag = c)) events).map fun e => e.1.line
          simpa using h3
        exact h1.trans h2
      exact hlinesnd.sublist hsubl
    · -- distinct countries have disjoint line lists
      have hdisj : ∀ c c' : String, c ≠ c' →
          List.Disjoint (((Ip2.run_concurrent_tests events).1 c).map Prod.snd)
            (((Ip2.run_concurrent_tests events).1 c').map Prod.snd) := by
        intro c c' hcc l hl hl'
        obtain ⟨e, he, hetag, heline⟩ := hprov c l hl
        obtain ⟨e', he', hetag', heline'⟩ := hprov c' l hl'
        have : e.1 = e'.1 :=
          hinj (hmem e he) (hmem e' he') (by rw [heline, heline'])
        exact hcc (by rw [← hetag, ← hetag', this])
      have hcn : COUNTRIES.Pairwise (· ≠ ·) := by decide
      exact (List.pairwise_map.2 (hcn.imp fun h => hdisj _ _ h) :
        (COUNTRIES.map _).Pairwise _)

/-- Witness for `output_lines_trimmed_nodup`: the full run on `text0`
under `geo0`. -/
theorem output_lines_trimmed_nodup_witness :
    (∀ l ∈ Ip2.write_output (Ip2.run_concurrent_tests events0).1,
        ∃ raw ∈ splitlines text0, l = strip raw) ∧
      (Ip2.write_output (Ip2.run_concurrent_tests events0).1).Nodup :=
  output_lines_trimmed_nodup geo0 text0 events0 (by decide) (by decide)

end CmIP
